import Mathlib

/-!
Verification of the `patcher` binary patch engine against its specification.

The development shallowly embeds the Rust sources:
  * `rolling_hash.rs` — the Adler-32 style rolling hash (`RollingHash`);
  * `binary_diff.rs`  — block-matching diff (`compute_diff` and helpers);
  * `binary_patch.rs` — chunk replay (`apply_diff`);
  * `apply.rs`        — the patch applier pipeline (`applyPatchModel` and
    per-operation bodies `addFileActions`, `modifyFileOp`);
  * `create.rs`       — the patch builder (`createPatchOps` etc.).

Modelling conventions:
  * bytes are `Nat` (values < 256 where a claim needs it);
  * machine integers are `Nat` with explicit reductions `% 2^32` / `% 2^64`
    exactly where the Rust code wraps or truncates;
  * the external BLAKE3 hash is modelled as an injective fingerprint — the
    identity on byte lists (`blake3_hash`); the code only compares digests
    for equality, so injectivity is the property the algorithms rely on;
  * fallible slicing (`old[start..end]`, which panics when out of range)
    is modelled with `Option`;
  * filesystem effects of the applier are modelled as an action trace.
-/

/-- `MOD_ADLER` from rolling_hash.rs. -/
def MOD_ADLER : Nat := 65521

/-- 2^32: the modulus of Rust `u32` arithmetic. -/
def U32 : Nat := 4294967296

/-- 2^64: the modulus of Rust `u64` arithmetic. -/
def U64 : Nat := 18446744073709551616

/-- The rolling-hash state: two running sums and the window size,
from `struct RollingHash` in rolling_hash.rs (all fields `u32`). -/
structure RollingHash where
  a : Nat
  b : Nat
  window_size : Nat
  deriving Repr, DecidableEq

/-- `RollingHash::new()`. -/
def RollingHash.new : RollingHash := ⟨1, 0, 0⟩

/-- One step of the accumulation loop in `RollingHash::init`:
`a += byte as u64; b += a;` with wrapping `u64` arithmetic. -/
def initAccum (p : Nat × Nat) (byte : Nat) : Nat × Nat :=
  let a := (p.1 + byte) % U64
  (a, (p.2 + a) % U64)

/-- `RollingHash::init(data)`: accumulate in 64-bit, reduce once at the end.
`self.window_size = data.len() as u32` truncates the length to 32 bits. -/
def RollingHash.init (data : List Nat) : RollingHash :=
  let p := data.foldl initAccum (1, 0)
  ⟨p.1 % MOD_ADLER, p.2 % MOD_ADLER, data.length % U32⟩

/-- `RollingHash::rotate(old_byte, new_byte)`.  The product
`old * self.window_size` is a `u32` multiplication, hence the `% U32`.
The subtractions cannot underflow for reduced states and byte inputs
(`a + MOD_ADLER ≥ old` and `b + MOD_ADLER - 1 + a ≥ (old*ws) % MOD_ADLER`). -/
def RollingHash.rotate (self : RollingHash) (old_byte new_byte : Nat) : RollingHash :=
  let old := old_byte
  let a := (self.a + MOD_ADLER - old + new_byte) % MOD_ADLER
  let b := (self.b + MOD_ADLER - 1 + a - (old * self.window_size % U32) % MOD_ADLER)
      % MOD_ADLER
  ⟨a, b, self.window_size⟩

/-- `RollingHash::digest()`: `(self.b << 16) | self.a` in `u32`. -/
def RollingHash.digest (self : RollingHash) : Nat :=
  ((self.b <<< 16) % U32) ||| self.a

/-- A diff chunk, from `enum DiffChunk` in patch_format.rs. -/
inductive DiffChunk where
  | Copy (offset length : Nat)
  | Insert (data : List Nat)
  deriving Repr, DecidableEq

/-- The external BLAKE3 hash, modelled as an injective fingerprint: the
identity on byte lists.  The code only ever compares digests for equality,
and the algorithms rely exactly on collision-freedom of the hash. -/
def blake3_hash (data : List Nat) : List Nat := data

/-- `BLOCK_SIZE` from binary_diff.rs. -/
def BLOCK_SIZE : Nat := 4096

/-- `struct BlockSignature` from binary_diff.rs. -/
structure BlockSignature where
  rolling_hash : Nat
  strong_hash : List Nat
  offset : Nat
  deriving Repr, DecidableEq

/-- The block of `data` starting at byte `start` (at most `BLOCK_SIZE` long):
`&data[start..(start + BLOCK_SIZE).min(data.len())]`. -/
def blockAt (data : List Nat) (start : Nat) : List Nat :=
  (data.drop start).take BLOCK_SIZE

/-- `build_signatures(data)`: one signature per non-overlapping block. -/
def build_signatures (data : List Nat) : List BlockSignature :=
  let num_blocks := (data.length + BLOCK_SIZE - 1) / BLOCK_SIZE
  (List.range num_blocks).map fun i =>
    let block := blockAt data (i * BLOCK_SIZE)
    { rolling_hash := (RollingHash.init block).digest
      strong_hash := blake3_hash block
      offset := i * BLOCK_SIZE }

/-- `find_match`: the hash table maps a rolling digest to the list of
signature indices carrying it, in ascending index order, and the scan takes
the first candidate whose strong hash also matches; this is exactly the
first signature (in index order) matching on both hashes.
Returns `(old_offset, length)` as in the source. -/
def find_match (rolling_digest : Nat) (new_block : List Nat) (old : List Nat)
    (signatures : List BlockSignature) : Option (Nat × Nat) :=
  let new_strong := blake3_hash new_block
  match signatures.find? fun sig =>
      sig.rolling_hash = rolling_digest ∧ sig.strong_hash = new_strong with
  | none => none
  | some sig =>
      let block_end := min (sig.offset + BLOCK_SIZE) old.length
      some (sig.offset, block_end - sig.offset)

/-- The trailing flush of `match_blocks`: extend the literal buffer with the
bytes past the last full window and emit a final `Insert` if non-empty. -/
def flushTail (new : List Nat) (pos : Nat) (insert_buf : List Nat) : List DiffChunk :=
  let buf := insert_buf ++ new.drop pos
  if buf = [] then [] else [DiffChunk.Insert buf]

/-- The main loop of `match_blocks`, with the chunks it emits from state
`(pos, insert_buf, rolling)` onward as result.  The loop advances `pos` by
at least one byte per iteration, so a fuel of `new.length + 1` (supplied by
`match_blocks`) never runs out; on exhaustion the loop finalizes like the
normal exit path. -/
def matchLoop (old new : List Nat) (signatures : List BlockSignature) :
    Nat → Nat → List Nat → RollingHash → List DiffChunk
  | 0, pos, insert_buf, _ => flushTail new pos insert_buf
  | fuel + 1, pos, insert_buf, rolling =>
    if pos + BLOCK_SIZE > new.length then
      flushTail new pos insert_buf
    else
      match find_match rolling.digest ((new.drop pos).take BLOCK_SIZE) old signatures with
      | some mr =>
          let emitted := if insert_buf = [] then [] else [DiffChunk.Insert insert_buf]
          let pos' := pos + mr.2
          let rolling' :=
            if pos' + BLOCK_SIZE ≤ new.length then
              RollingHash.init ((new.drop pos').take BLOCK_SIZE)
            else rolling
          emitted ++ DiffChunk.Copy mr.1 mr.2 ::
            matchLoop old new signatures fuel pos' [] rolling'
      | none =>
          let pos' := pos + 1
          let rolling' :=
            if pos' + BLOCK_SIZE ≤ new.length then
              rolling.rotate (new.getD pos 0) (new.getD (pos + BLOCK_SIZE) 0)
            else rolling
          matchLoop old new signatures fuel pos' (insert_buf ++ [new.getD pos 0]) rolling'

/-- `match_blocks(old, new, hash_table, signatures)`. -/
def match_blocks (old new : List Nat) (signatures : List BlockSignature) : List DiffChunk :=
  if new.length < BLOCK_SIZE then
    [DiffChunk.Insert new]
  else
    matchLoop old new signatures (new.length + 1) 0 [] (RollingHash.init (new.take BLOCK_SIZE))

/-- `compute_diff(old, new)` from binary_diff.rs. -/
def compute_diff (old new : List Nat) : List DiffChunk :=
  if old = [] then
    if new = [] then [] else [DiffChunk.Insert new]
  else
    match_blocks old new (build_signatures old)

/-- `apply_diff(old, chunks)` from binary_patch.rs.  The Rust slice
`old[start..start+length]` panics when the range exceeds the buffer;
the model returns `none` there. -/
def apply_diff (old : List Nat) (chunks : List DiffChunk) : Option (List Nat) :=
  match chunks with
  | [] => some []
  | DiffChunk.Copy offset length :: rest =>
      if offset + length ≤ old.length then
        (apply_diff old rest).map (fun r => ((old.drop offset).take length) ++ r)
      else none
  | DiffChunk.Insert data :: rest =>
      (apply_diff old rest).map (fun r => data ++ r)

/-!
Wire paths.  The repository stores paths as UTF-8 strings (forward-slash
separated); the model uses the byte sequences themselves (`List Nat`),
on which Rust string comparison (`sort`) is plain lexicographic byte
order.  `strBytes` converts a Lean string literal to its byte list for
concrete inputs (UTF-8 is order-preserving w.r.t. code points, so byte
order and code-point order agree).
-/

/-- Byte list of a string literal (code points; identical to UTF-8 bytes for
ASCII, and ordered identically in general). -/
def strBytes (s : String) : List Nat := s.toList.map Char.toNat

/-- Lexicographic byte order on paths: `a <= b` as Rust compares strings. -/
def bytesLe : List Nat → List Nat → Bool
  | [], _ => true
  | _ :: _, [] => false
  | a :: as, b :: bs => if a < b then true else if a = b then bytesLe as bs else false

/-- The suffix of `l` strictly after the last occurrence of `sep` (or all of
`l` when `sep` does not occur). -/
def afterLastSep (sep : Nat) : List Nat → List Nat
  | [] => []
  | c :: cs => if c = sep ∨ sep ∈ cs then afterLastSep sep cs else c :: cs

/-- The prefix of `l` strictly before the last occurrence of `sep` (or `[]`
when `sep` does not occur). -/
def beforeLastSep (sep : Nat) : List Nat → List Nat
  | [] => []
  | c :: cs => if sep ∈ cs then c :: beforeLastSep sep cs else []

/-- The final path component (`Path::file_name`-like): bytes after the last
`/` (byte 47). -/
def fileName (p : List Nat) : List Nat := afterLastSep 47 p

/-- `Path::extension()` on the wire path: the part of the file name after its
last `.` (byte 46), where a leading `.` does not start an extension
(`".gitignore"` has none) and a trailing `.` yields an empty extension. -/
def extensionOf (p : List Nat) : Option (List Nat) :=
  let name := fileName p
  let rest := if name.head? = some 46 then name.tail else name
  if 46 ∈ rest then some (afterLastSep 46 name) else none

/-- `str::to_ascii_lowercase` on bytes. -/
def lowerBytes (l : List Nat) : List Nat :=
  l.map fun b => if 65 ≤ b ∧ b ≤ 90 then b + 32 else b

/-- The extension set of `is_incompressible` in create.rs. -/
def incompressibleExts : List (List Nat) :=
  [strBytes "jpg", strBytes "jpeg", strBytes "png", strBytes "gif", strBytes "bmp",
   strBytes "webp", strBytes "ico", strBytes "tiff", strBytes "tif", strBytes "avif",
   strBytes "mp4", strBytes "mkv", strBytes "avi", strBytes "mov", strBytes "wmv",
   strBytes "flv", strBytes "webm", strBytes "m4v",
   strBytes "mp3", strBytes "aac", strBytes "ogg", strBytes "flac", strBytes "opus",
   strBytes "m4a", strBytes "wma",
   strBytes "zip", strBytes "gz", strBytes "bz2", strBytes "xz", strBytes "zst",
   strBytes "7z", strBytes "rar",
   strBytes "docx", strBytes "xlsx", strBytes "pptx", strBytes "odt", strBytes "ods",
   strBytes "odp",
   strBytes "woff", strBytes "woff2", strBytes "pdf"]

/-- `is_incompressible(path)` from create.rs: lowercase the extension and
match it against the fixed set.  The source applies this to the absolute
new-file path; the extension only depends on the final component, which is
identical for the absolute and the relative path, so the model takes the
relative path. -/
def is_incompressible (p : List Nat) : Bool :=
  match extensionOf p with
  | some e => incompressibleExts.contains (lowerBytes e)
  | none => false

/-- `MAGIC` from patch_format.rs, as bytes. -/
def magicBytes : List Nat := strBytes "PATCHV01"

/-- `FORMAT_VERSION` from patch_format.rs. -/
def FORMAT_VERSION : Nat := 1

/-- `enum PatchOp` from patch_format.rs (hashes are digests, see
`blake3_hash`). -/
inductive PatchOp where
  | CreateDir (path : List Nat)
  | AddFile (path : List Nat) (data : List Nat) (blake3Digest : List Nat)
  | ModifyFile (path : List Nat) (diff_chunks : List DiffChunk) (new_blake3Digest : List Nat)
  | DeleteFile (path : List Nat)
  | DeleteDir (path : List Nat)
  deriving Repr, DecidableEq

/-- `struct PatchManifest` from patch_format.rs. -/
structure PatchManifest where
  version : Nat
  operations : List PatchOp
  deriving Repr, DecidableEq

/-- `struct ApplySummary` from patch_format.rs. -/
structure ApplySummary where
  dirs_created : Nat
  files_added : Nat
  files_modified : Nat
  files_deleted : Nat
  dirs_deleted : Nat
  deriving Repr, DecidableEq

/-- `hash_bytes` from util.rs (BLAKE3 digest of a byte slice). -/
def hash_bytes (data : List Nat) : List Nat := blake3_hash data

/-- The error kinds the applier can surface (apply.rs reports them as
`anyhow` context strings; the model uses one constructor per kind). -/
inductive ApplyError where
  | badMagic
  | unsupportedVersion
  | deserializationFailed
  | hashMismatch
  | copyOutOfRange
  | ioError
  deriving Repr, DecidableEq

/-- A filesystem side effect the applier performs, in the order performed. -/
inductive FsAction where
  | createDirAll (path : List Nat)
  | writeFile (path : List Nat) (data : List Nat)
  | removeDirAll (path : List Nat)
  | removeFile (path : List Nat)
  deriving Repr, DecidableEq

/-- `Path::join` on Unix: an absolute right operand replaces the base,
otherwise the two are joined with a `/`.  No normalization happens: `..`
and `.` segments are kept verbatim. -/
def joinPath (base p : List Nat) : List Nat :=
  if p.head? = some 47 then p else base ++ 47 :: p

/-- `Path::parent` as a string, for the mkdir of an add's parent directory:
everything before the last `/`. -/
def parentDir (p : List Nat) : List Nat := beforeLastSep 47 p

/-- `Path::parent` for relative wire paths: `none` for the empty path, the
prefix before the last `/` otherwise (`""` when there is no slash). -/
def rustParent (p : List Nat) : Option (List Nat) :=
  if p = [] then none else some (beforeLastSep 47 p)

/-- `splitOn "/"` for byte paths. -/
def splitSlash (p : List Nat) : List (List Nat) :=
  p.foldr
    (fun c acc =>
      if c = 47 then [] :: acc
      else match acc with
        | [] => [[c]]
        | g :: gs => (c :: g) :: gs)
    [[]]

/-- The proper ancestors of a relative path, nearest last: for `a/b/c`
these are `a` and `a/b`.  The applier's orphan-file loop walks exactly
these parents (stopping at the empty parent). -/
def strictAncestors (p : List Nat) : List (List Nat) :=
  let cs := splitSlash p
  (List.range (cs.length - 1)).map fun k => List.intercalate [47] (cs.take (k + 1))

/-- The body of the `AddFile` arm in apply.rs (lines 132-153): recursive
mkdir of the parent, write the file, then hash the written bytes and compare
with the operation's digest; a mismatch is fatal. -/
def addFileActions (target path data digest : List Nat) :
    List FsAction × Option ApplyError :=
  let full := joinPath target path
  ([FsAction.createDirAll (parentDir full), FsAction.writeFile full data],
    if hash_bytes data ≠ digest then some ApplyError.hashMismatch else none)

/-- The body of the `ModifyFile` arm in apply.rs (lines 158-181), given the
current on-disk bytes: replay the chunks into a fresh buffer, hash that
buffer and verify it against the operation's digest **before** the write.
Returns the resulting on-disk content of the file together with the error,
if any: on a hash mismatch (or an out-of-range `Copy`, which panics inside
`apply_diff`) the file is left unchanged. -/
def modifyFileOp (oldData : List Nat) (chunks : List DiffChunk) (digest : List Nat) :
    List Nat × Option ApplyError :=
  match apply_diff oldData chunks with
  | none => (oldData, some ApplyError.copyOutOfRange)
  | some newData =>
      if hash_bytes newData ≠ digest then (oldData, some ApplyError.hashMismatch)
      else (newData, none)

/-- The grouping loop of apply.rs: one owned vector per variant, order
preserved.  `selCreateDir` etc. select one variant each. -/
def selCreateDir : PatchOp → Bool
  | PatchOp.CreateDir _ => true
  | _ => false

def selAddFile : PatchOp → Bool
  | PatchOp.AddFile _ _ _ => true
  | _ => false

def selModifyFile : PatchOp → Bool
  | PatchOp.ModifyFile _ _ _ => true
  | _ => false

def selDeleteFile : PatchOp → Bool
  | PatchOp.DeleteFile _ => true
  | _ => false

def selDeleteDir : PatchOp → Bool
  | PatchOp.DeleteDir _ => true
  | _ => false

/-- Phase 1 of apply.rs: `create_dir_all` for every `CreateDir`, in
manifest order. -/
def runCreateDirs (target : List Nat) (cds : List PatchOp) : List FsAction :=
  cds.filterMap fun op =>
    match op with
    | PatchOp.CreateDir p => some (FsAction.createDirAll (joinPath target p))
    | _ => none

/-- The add phase: Rayon runs the per-file bodies in parallel over disjoint
paths and `try_for_each` surfaces the first error; the model runs them in
vector order and stops at the first error, which is an admissible
linearization. -/
def runAdds (target : List Nat) : List PatchOp → List FsAction × Option ApplyError
  | [] => ([], none)
  | PatchOp.AddFile p d digest :: rest =>
      let step := addFileActions target p d digest
      (match step.2 with
       | some e => (step.1, some e)
       | none =>
          let r := runAdds target rest
          (step.1 ++ r.1, r.2))
  | _ :: rest => runAdds target rest

/-- The modify phase, with the pre-phase disk contents supplied by
`fsRead` (the three phases touch disjoint paths, so reads are from the
pre-phase state).  A failed `mmap` (missing file) is an I/O error. -/
def runModifies (target : List Nat) (fsRead : List Nat → Option (List Nat)) :
    List PatchOp → List FsAction × Option ApplyError
  | [] => ([], none)
  | PatchOp.ModifyFile p chunks digest :: rest =>
      let full := joinPath target p
      (match fsRead full with
       | none => ([], some ApplyError.ioError)
       | some oldData =>
          let step := modifyFileOp oldData chunks digest
          match step.2 with
          | some e => ([], some e)
          | none =>
              let r := runModifies target fsRead rest
              (FsAction.writeFile full step.1 :: r.1, r.2))
  | _ :: rest => runModifies target fsRead rest

/-- The deletion planning of apply.rs: the set of `DeleteDir` paths, the
roots among them (parent not also deleted), and the orphan `DeleteFile`s
(no ancestor deleted); then `remove_dir_all` per root and `remove_file` per
orphan (`NotFound` silently recovered, hence no error outcome here). -/
def runDeletes (target : List Nat) (delete_files delete_dirs : List PatchOp) :
    List FsAction :=
  let deletedDirSet : List (List Nat) :=
    (delete_dirs.filterMap fun op =>
      match op with
      | PatchOp.DeleteDir p => some p
      | _ => none).dedup
  let roots : List (List Nat) :=
    deletedDirSet.filter fun d =>
      match rustParent d with
      | none => true
      | some par => par = [] ∨ ¬ deletedDirSet.contains par
  let orphans : List PatchOp :=
    delete_files.filter fun op =>
      match op with
      | PatchOp.DeleteFile p => (strictAncestors p).all fun a => ¬ deletedDirSet.contains a
      | _ => true
  roots.map (fun d => FsAction.removeDirAll (joinPath target d)) ++
    orphans.filterMap fun op =>
      match op with
      | PatchOp.DeleteFile p => some (FsAction.removeFile (joinPath target p))
      | _ => none

/-- `apply_patch(target_dir, patch_path)` from apply.rs, as a model of the
filesystem actions performed (in order) and the outcome.  `raw` is the
mapped patch file; bincode/zstd decoding of the payload is external code,
abstracted as the `decoded` argument (`none` models a malformed payload).
Canonicalization of the (existing) target directory is modelled as the
identity.  The three parallel phases run over disjoint path sets and are
linearized adds-modifies-deletes; an error in a phase fails the whole call
(the actions of later phases may or may not happen in the concurrent
original; the model omits them). -/
def applyPatchModel (target : List Nat) (raw : List Nat)
    (decoded : Option PatchManifest) (fsRead : List Nat → Option (List Nat)) :
    List FsAction × Except ApplyError ApplySummary :=
  if ¬ (8 ≤ raw.length ∧ raw.take 8 = magicBytes) then
    ([], Except.error ApplyError.badMagic)
  else
    match decoded with
    | none => ([], Except.error ApplyError.deserializationFailed)
    | some manifest =>
      if manifest.version ≠ FORMAT_VERSION then
        ([], Except.error ApplyError.unsupportedVersion)
      else
        let create_dirs := manifest.operations.filter selCreateDir
        let add_files := manifest.operations.filter selAddFile
        let modify_files := manifest.operations.filter selModifyFile
        let delete_files := manifest.operations.filter selDeleteFile
        let delete_dirs := manifest.operations.filter selDeleteDir
        let summary : ApplySummary :=
          ⟨create_dirs.length, add_files.length, modify_files.length,
            delete_files.length, delete_dirs.length⟩
        let cdActs := runCreateDirs target create_dirs
        let addR := runAdds target add_files
        match addR.2 with
        | some e => (cdActs ++ addR.1, Except.error e)
        | none =>
          let modR := runModifies target fsRead modify_files
          match modR.2 with
          | some e => (cdActs ++ addR.1 ++ modR.1, Except.error e)
          | none =>
            let delActs := runDeletes target delete_files delete_dirs
            (cdActs ++ addR.1 ++ modR.1 ++ delActs, Except.ok summary)

/-!
The patch builder (create.rs).  The two directory walks are filesystem
traversals; the model takes their outputs — the two entry vectors — as
input.  Relative paths are wire byte paths; a file entry's `size` is the
length of its contents (the walker reads it from the directory metadata).
-/

/-- `enum EntryKind` from util.rs. -/
inductive EntryKind where
  | File
  | Dir
  deriving Repr, DecidableEq

/-- A walker entry (util.rs `DirEntry`), with the file bytes standing in for
the on-disk file the `full_path` points to. -/
structure TreeEntry where
  relative_path : List Nat
  kind : EntryKind
  content : List Nat
  deriving Repr, DecidableEq

/-- The `size` field of a walker entry: byte count for files, 0 for
directories. -/
def entrySize (e : TreeEntry) : Nat :=
  match e.kind with
  | EntryKind.File => e.content.length
  | EntryKind.Dir => 0

/-- The path comparison used for sorting, as a relation. -/
def pathLe (a b : List Nat) : Prop := bytesLe a b = true

instance : DecidableRel pathLe := fun a b => by
  unfold pathLe
  infer_instance

/-- `sort_dirs_parent_first` from util.rs: plain ascending sort. -/
def sort_dirs_parent_first (dirs : List (List Nat)) : List (List Nat) :=
  dirs.insertionSort pathLe

/-- `sort_dirs_deepest_first` from util.rs: ascending sort, then reverse. -/
def sort_dirs_deepest_first (dirs : List (List Nat)) : List (List Nat) :=
  (dirs.insertionSort pathLe).reverse

/-- `path_set` from util.rs: the relative paths as a `BTreeSet`, i.e. the
distinct paths in ascending order (the model keeps them as a sorted
duplicate-free list, which is how the set iterates). -/
def path_set (entries : List TreeEntry) : List (List Nat) :=
  ((entries.map TreeEntry.relative_path).dedup).insertionSort pathLe

/-- `HashMap` lookup `path → entry` (walk outputs have distinct paths; on
duplicates `find?` takes the first). -/
def lookupEntry (entries : List TreeEntry) (p : List Nat) : Option TreeEntry :=
  entries.find? fun e => e.relative_path = p

/-- Does the entry at path `p` have directory kind? -/
def kindIsDir (entries : List TreeEntry) (p : List Nat) : Bool :=
  match lookupEntry entries p with
  | some e => e.kind = EntryKind.Dir
  | none => false

/-- Does the entry at path `p` have file kind? -/
def kindIsFile (entries : List TreeEntry) (p : List Nat) : Bool :=
  match lookupEntry entries p with
  | some e => e.kind = EntryKind.File
  | none => false

/-- `new_paths.difference(&old_paths)` etc.: BTreeSet difference iterates
the left set in ascending order, keeping paths not in the right set. -/
def setDiff (a b : List (List Nat)) : List (List Nat) :=
  a.filter fun p => ¬ b.contains p

/-- BTreeSet intersection, iterated in ascending order of the left set. -/
def setInter (a b : List (List Nat)) : List (List Nat) :=
  a.filter fun p => b.contains p

/-- Classification stage 2 of create.rs: new-only directory paths. -/
def dirs_to_create (old new : List TreeEntry) : List (List Nat) :=
  (setDiff (path_set new) (path_set old)).filter (kindIsDir new)

/-- Classification: new-only file paths. -/
def files_to_add (old new : List TreeEntry) : List (List Nat) :=
  (setDiff (path_set new) (path_set old)).filter (kindIsFile new)

/-- Classification: old-only file paths. -/
def files_to_delete (old new : List TreeEntry) : List (List Nat) :=
  (setDiff (path_set old) (path_set new)).filter (kindIsFile old)

/-- Classification: old-only directory paths. -/
def dirs_to_delete (old new : List TreeEntry) : List (List Nat) :=
  (setDiff (path_set old) (path_set new)).filter (kindIsDir old)

/-- Classification: paths present in both trees as files (maybe-modified). -/
def files_maybe_modified (old new : List TreeEntry) : List (List Nat) :=
  (setInter (path_set old) (path_set new)).filter fun p =>
    kindIsFile old p && kindIsFile new p

/-- Stage 3 of create.rs for one maybe-modified pair: stream-hash the new
file; when the sizes match, also hash the old file, and drop the pair when
the hashes agree; otherwise diff — a single whole-file `Insert` for an
incompressible extension, `compute_diff` on the two mapped files
otherwise.  Produces `(rel_path, chunks, new_hash)`. -/
def diffResultFor (old new : List TreeEntry) (p : List Nat) :
    Option (List Nat × List DiffChunk × List Nat) :=
  match lookupEntry old p, lookupEntry new p with
  | some oe, some ne =>
      if entrySize oe = entrySize ne ∧ blake3_hash oe.content = blake3_hash ne.content then
        none
      else
        some (p,
          (if is_incompressible p then [DiffChunk.Insert ne.content]
           else compute_diff oe.content ne.content),
          blake3_hash ne.content)
  | _, _ => none

/-- All confirmed-modified results, in maybe-modified order (the parallel
map preserves input order). -/
def diffResults (old new : List TreeEntry) : List (List Nat × List DiffChunk × List Nat) :=
  (files_maybe_modified old new).filterMap (diffResultFor old new)

/-- Stage 4 of create.rs: for every add, the file bytes and their hash. -/
def addResults (old new : List TreeEntry) : List (List Nat × List Nat × List Nat) :=
  (files_to_add old new).filterMap fun p =>
    (lookupEntry new p).map fun e => (p, e.content, blake3_hash e.content)

/-- Stage 5 of create.rs: assemble the operations in phase order —
`CreateDir` (sorted parent-first), `AddFile`, `ModifyFile`, `DeleteFile`,
`DeleteDir` (sorted deepest-first). -/
def createPatchOps (old new : List TreeEntry) : List PatchOp :=
  (sort_dirs_parent_first (dirs_to_create old new)).map PatchOp.CreateDir ++
    (addResults old new).map (fun t => PatchOp.AddFile t.1 t.2.1 t.2.2) ++
    (diffResults old new).map (fun t => PatchOp.ModifyFile t.1 t.2.1 t.2.2) ++
    (files_to_delete old new).map PatchOp.DeleteFile ++
    (sort_dirs_deepest_first (dirs_to_delete old new)).map PatchOp.DeleteDir

/-- The manifest create.rs serializes. -/
def createManifest (old new : List TreeEntry) : PatchManifest :=
  ⟨FORMAT_VERSION, createPatchOps old new⟩

/-- The summary create.rs returns: classification-time counts for
adds/deletes/dirs, post-confirmation count for modifications. -/
def createPatchSummary (old new : List TreeEntry) : ApplySummary :=
  ⟨(dirs_to_create old new).length,
    (files_to_add old new).length,
    (diffResults old new).length,
    (files_to_delete old new).length,
    (dirs_to_delete old new).length⟩

/-- Is `c` a proper path-descendant of `p` (i.e. `c = p / s`)? -/
def isProperDescendant (c p : List Nat) : Prop := ∃ s, c = p ++ 47 :: s

/-- The weighted sum `Σ bᵢ · (|L| − i)` over a byte list: the contribution
of the bytes to the `b` accumulator of `RollingHash.init` (each byte enters
`a` once and is then added into `b` once per remaining step). -/
def adlerW : List Nat → Nat
  | [] => 0
  | x :: xs => x * (xs.length + 1) + adlerW xs

/-- Count of `ModifyFile` operations in a manifest. -/
def countModifies (ops : List PatchOp) : Nat := ops.countP selModifyFile

/-- `pathLe` is total (needed for the sortedness of `sort`). -/
instance : IsTotal (List Nat) pathLe :=
  ⟨by
    intro a
    induction a with
    | nil => intro b; exact Or.inl rfl
    | cons x xs ih =>
      intro b
      cases b with
      | nil => exact Or.inr rfl
      | cons y ys =>
        rcases Nat.lt_trichotomy x y with h | h | h
        · exact Or.inl (by simp [pathLe, bytesLe, h])
        · subst h
          rcases ih ys with h2 | h2
          · exact Or.inl (by simp [pathLe, bytesLe, lt_irrefl]; exact h2)
          · exact Or.inr (by simp [pathLe, bytesLe, lt_irrefl]; exact h2)
        · exact Or.inr (by simp [pathLe, bytesLe, h])⟩

/-- `pathLe` is transitive. -/
instance : IsTrans (List Nat) pathLe :=
  ⟨by
    intro a
    induction a with
    | nil => intro b c _ _; exact rfl
    | cons x xs ih =>
      intro b c hab hbc
      cases b with
      | nil => exact absurd hab (by simp [pathLe, bytesLe])
      | cons y ys =>
        cases c with
        | nil => exact absurd hbc (by simp [pathLe, bytesLe])
        | cons z zs =>
          have hab2 : x < y ∨ (x = y ∧ pathLe xs ys) := by
            by_cases h : x < y
            · exact Or.inl h
            · by_cases he : x = y
              · exact Or.inr ⟨he, by simpa [pathLe, bytesLe, h, he] using hab⟩
              · exact absurd hab (by simp [pathLe, bytesLe, h, he])
          have hbc2 : y < z ∨ (y = z ∧ pathLe ys zs) := by
            by_cases h : y < z
            · exact Or.inl h
            · by_cases he : y = z
              · exact Or.inr ⟨he, by simpa [pathLe, bytesLe, h, he] using hbc⟩
              · exact absurd hbc (by simp [pathLe, bytesLe, h, he])
          rcases hab2 with h1 | ⟨he1, hr1⟩
          · rcases hbc2 with h2 | ⟨he2, hr2⟩
            · exact (by simp [pathLe, bytesLe, Nat.lt_trans h1 h2])
            · subst he2; exact (by simp [pathLe, bytesLe, h1])
          · subst he1
            rcases hbc2 with h2 | ⟨he2, hr2⟩
            · exact (by simp [pathLe, bytesLe, h2])
            · subst he2
              have := ih ys zs hr1 hr2
              by_cases hxz : x < x
              · exact absurd hxz (lt_irrefl x)
              · exact (by simp [pathLe, bytesLe, lt_irrefl]; exact this)⟩

/-- Count of `Copy` chunks in a chunk list. -/
def countCopies (chunks : List DiffChunk) : Nat :=
  chunks.countP fun c =>
    match c with
    | DiffChunk.Copy _ _ => true
    | _ => false

/-! Round-trip of the block differ (claims C1 and C10). -/

theorem apply_diff_flushTail (old new : List Nat) (pos : Nat) (buf : List Nat) :
    apply_diff old (flushTail new pos buf) = some (buf ++ new.drop pos) := by
  unfold flushTail
  by_cases h : buf ++ new.drop pos = []
  · simp only [h, if_pos rfl]
    simp [apply_diff, h.symm]
  · simp [h, apply_diff]

theorem apply_diff_append (old : List Nat) (c1 c2 : List DiffChunk) :
    apply_diff old (c1 ++ c2) =
      (apply_diff old c1).bind fun r1 => (apply_diff old c2).map fun r2 => r1 ++ r2 := by
  induction c1 with
  | nil =>
    simp only [List.nil_append, apply_diff]
    cases apply_diff old c2 <;> simp
  | cons c rest ih =>
    cases c with
    | Copy off len =>
      by_cases hr : off + len ≤ old.length
      · simp only [List.cons_append, apply_diff, if_pos hr]
        cases h1 : apply_diff old rest <;> cases h2 : apply_diff old c2 <;>
          simp [ih, h1, h2, List.append_assoc]
      · simp only [List.cons_append, apply_diff, if_neg hr]
        simp
    | Insert d =>
      simp only [List.cons_append, apply_diff]
      cases h1 : apply_diff old rest <;> cases h2 : apply_diff old c2 <;>
        simp [ih, h1, h2, List.append_assoc]

theorem length_window (new : List Nat) (pos : Nat) (h : pos + BLOCK_SIZE ≤ new.length) :
    ((new.drop pos).take BLOCK_SIZE).length = BLOCK_SIZE := by
  simp only [List.length_take, List.length_drop]
  omega

theorem find_match_some (old w : List Nat) (d off len : Nat)
    (hw : w.length = BLOCK_SIZE)
    (h : find_match d w old (build_signatures old) = some (off, len)) :
    len = BLOCK_SIZE ∧ off + BLOCK_SIZE ≤ old.length ∧ (old.drop off).take BLOCK_SIZE = w := by
  simp only [find_match] at h
  cases hf : (build_signatures old).find? fun sig =>
      sig.rolling_hash = d ∧ sig.strong_hash = blake3_hash w with
  | none => rw [hf] at h; exact absurd h (by simp)
  | some sig =>
    rw [hf] at h
    simp only [Option.some.injEq, Prod.mk.injEq] at h
    obtain ⟨hoff, hlen⟩ := h
    have hmem : sig ∈ build_signatures old := List.mem_of_find?_eq_some hf
    have hprop := List.find?_some hf
    simp only [decide_eq_true_eq] at hprop
    obtain ⟨hroll, hstrong⟩ := hprop
    unfold build_signatures at hmem
    simp only [List.mem_map, List.mem_range] at hmem
    obtain ⟨i, hi, hsig⟩ := hmem
    have hblockeq : blockAt old (i * BLOCK_SIZE) = w := by
      have h2 : sig.strong_hash = blockAt old (i * BLOCK_SIZE) := by
        rw [← hsig]; rfl
      rw [hstrong] at h2
      exact h2.symm
    have hlb : (blockAt old (i * BLOCK_SIZE)).length = BLOCK_SIZE := by
      rw [hblockeq, hw]
    have hbound : i * BLOCK_SIZE + BLOCK_SIZE ≤ old.length := by
      simp only [blockAt, List.length_take, List.length_drop, BLOCK_SIZE] at hlb ⊢
      omega
    have hoffsig : sig.offset = i * BLOCK_SIZE := by rw [← hsig]
    rw [hoffsig] at hoff hlen
    subst hoff
    refine ⟨?_, hbound, hblockeq⟩
    rw [← hlen]
    simp only [BLOCK_SIZE] at hbound ⊢
    omega

theorem matchLoop_apply (old new : List Nat) :
    ∀ (fuel pos : Nat) (buf : List Nat) (rolling : RollingHash),
    apply_diff old (matchLoop old new (build_signatures old) fuel pos buf rolling) =
      some (buf ++ new.drop pos) := by
  intro fuel
  induction fuel with
  | zero => intro pos buf rolling; exact apply_diff_flushTail old new pos buf
  | succ n ih =>
    intro pos buf rolling
    rw [matchLoop]
    by_cases hwin : pos + BLOCK_SIZE > new.length
    · rw [if_pos hwin]; exact apply_diff_flushTail old new pos buf
    · rw [if_neg hwin]
      push_neg at hwin
      have hB : 0 < BLOCK_SIZE := by norm_num [BLOCK_SIZE]
      have hpos : pos < new.length := by omega
      cases hfm : find_match rolling.digest ((new.drop pos).take BLOCK_SIZE) old
          (build_signatures old) with
      | none =>
        simp only [hfm]
        rw [ih]
        have hdrop : new.drop pos = new[pos] :: new.drop (pos + 1) :=
          List.drop_eq_getElem_cons hpos
        rw [List.getD_eq_getElem new 0 hpos, hdrop]
        rw [List.append_assoc]
        rfl
      | some mr =>
        obtain ⟨off, len⟩ := mr
        simp only [hfm]
        obtain ⟨hlen, hbound, hblock⟩ :=
          find_match_some old _ _ off len (length_window new pos hwin) hfm
        subst hlen
        have hcopy : apply_diff old
            (DiffChunk.Copy off BLOCK_SIZE ::
              matchLoop old new (build_signatures old) n (pos + BLOCK_SIZE) []
                (if pos + BLOCK_SIZE + BLOCK_SIZE ≤ new.length then
                  RollingHash.init ((new.drop (pos + BLOCK_SIZE)).take BLOCK_SIZE)
                 else rolling)) = some (new.drop pos) := by
          rw [apply_diff, if_pos hbound, ih, hblock]
          simp only [List.nil_append, Option.map_some', Option.some.injEq]
          rw [← List.drop_drop, List.take_append_drop]
        have hemit : apply_diff old (if buf = [] then [] else [DiffChunk.Insert buf]) =
            some buf := by
          by_cases hbuf : buf = []
          · rw [if_pos hbuf, hbuf]; rfl
          · rw [if_neg hbuf]; simp [apply_diff]
        rw [apply_diff_append, hemit, hcopy]
        rfl

theorem compute_diff_roundtrip (old new : List Nat) :
    apply_diff old (compute_diff old new) = some new := by
  unfold compute_diff
  by_cases hold : old = []
  · rw [if_pos hold]
    by_cases hnew : new = []
    · rw [if_pos hnew, hnew]; rfl
    · rw [if_neg hnew]; simp [apply_diff]
  · rw [if_neg hold]
    unfold match_blocks
    by_cases hsmall : new.length < BLOCK_SIZE
    · rw [if_pos hsmall]; simp [apply_diff]
    · rw [if_neg hsmall]
      rw [matchLoop_apply]
      simp

theorem countCopies_flushTail (new : List Nat) (pos : Nat) (buf : List Nat) :
    countCopies (flushTail new pos buf) = 0 := by
  by_cases h : buf ++ new.drop pos = [] <;> simp [flushTail, countCopies, h]

theorem countCopies_cons_copy (off len : Nat) (l : List DiffChunk) :
    countCopies (DiffChunk.Copy off len :: l) = countCopies l + 1 := by
  simp [countCopies]

theorem countCopies_emit (buf : List Nat) (l : List DiffChunk) :
    countCopies ((if buf = [] then [] else [DiffChunk.Insert buf]) ++ l) = countCopies l := by
  by_cases h : buf = [] <;> simp [h, countCopies]

theorem find_match_aligned_isSome (x : List Nat) (k : Nat)
    (hk : k * BLOCK_SIZE + BLOCK_SIZE ≤ x.length) :
    (find_match ((RollingHash.init ((x.drop (k * BLOCK_SIZE)).take BLOCK_SIZE)).digest)
      ((x.drop (k * BLOCK_SIZE)).take BLOCK_SIZE) x (build_signatures x)).isSome := by
  have hB : 0 < BLOCK_SIZE := by norm_num [BLOCK_SIZE]
  have hknum : k < (x.length + BLOCK_SIZE - 1) / BLOCK_SIZE := by
    simp only [BLOCK_SIZE] at hk ⊢
    omega
  have hmem : ({ rolling_hash := (RollingHash.init (blockAt x (k * BLOCK_SIZE))).digest
                 strong_hash := blake3_hash (blockAt x (k * BLOCK_SIZE))
                 offset := k * BLOCK_SIZE } : BlockSignature) ∈ build_signatures x := by
    unfold build_signatures
    simp only [List.mem_map, List.mem_range]
    exact ⟨k, hknum, rfl⟩
  have hfind : ((build_signatures x).find? fun sig =>
      sig.rolling_hash = (RollingHash.init ((x.drop (k * BLOCK_SIZE)).take BLOCK_SIZE)).digest ∧
        sig.strong_hash = blake3_hash ((x.drop (k * BLOCK_SIZE)).take BLOCK_SIZE)).isSome := by
    rw [List.find?_isSome]
    refine ⟨_, hmem, ?_⟩
    simp [blockAt]
  simp only [find_match]
  cases hf : (build_signatures x).find? fun sig =>
      sig.rolling_hash = (RollingHash.init ((x.drop (k * BLOCK_SIZE)).take BLOCK_SIZE)).digest ∧
        sig.strong_hash = blake3_hash ((x.drop (k * BLOCK_SIZE)).take BLOCK_SIZE) with
  | none => rw [hf] at hfind; simp at hfind
  | some sig => simp

theorem matchLoop_count_self (x : List Nat) :
    ∀ (fuel k : Nat) (buf : List Nat) (rolling : RollingHash),
      k ≤ x.length / BLOCK_SIZE →
      (k < x.length / BLOCK_SIZE →
        rolling = RollingHash.init ((x.drop (k * BLOCK_SIZE)).take BLOCK_SIZE)) →
      x.length / BLOCK_SIZE - k < fuel →
      countCopies (matchLoop x x (build_signatures x) fuel (k * BLOCK_SIZE) buf rolling)
        = x.length / BLOCK_SIZE - k := by
  intro fuel
  induction fuel with
  | zero => intro k buf rolling _ _ hf; omega
  | succ n ih =>
    intro k buf rolling hk hroll hf
    have hB : 0 < BLOCK_SIZE := by norm_num [BLOCK_SIZE]
    rw [matchLoop]
    by_cases hend : k = x.length / BLOCK_SIZE
    · have hover : k * BLOCK_SIZE + BLOCK_SIZE > x.length := by
        subst hend
        simp only [BLOCK_SIZE]
        omega
      rw [if_pos hover, countCopies_flushTail]
      omega
    · have hklt : k < x.length / BLOCK_SIZE := by omega
      have hfit : k * BLOCK_SIZE + BLOCK_SIZE ≤ x.length := by
        simp only [BLOCK_SIZE] at hklt ⊢
        omega
      rw [if_neg (by omega)]
      rw [hroll hklt]
      have hsome := find_match_aligned_isSome x k hfit
      cases hfm : find_match ((RollingHash.init ((x.drop (k * BLOCK_SIZE)).take BLOCK_SIZE)).digest)
          ((x.drop (k * BLOCK_SIZE)).take BLOCK_SIZE) x (build_signatures x) with
      | none => rw [hfm] at hsome; simp at hsome
      | some mr =>
        obtain ⟨off, len⟩ := mr
        have hlen : len = BLOCK_SIZE :=
          (find_match_some x _ _ off len (length_window x (k * BLOCK_SIZE) hfit) hfm).1
        subst hlen
        simp only [hfm]
        rw [countCopies_emit, countCopies_cons_copy]
        have hpos1 : k * BLOCK_SIZE + BLOCK_SIZE = (k + 1) * BLOCK_SIZE := by
          rw [Nat.succ_mul]
        rw [hpos1]
        rw [ih (k + 1) [] _ (by omega) ?_ (by omega)]
        · omega
        · intro hlt1
          have hfit2 : (k + 1) * BLOCK_SIZE + BLOCK_SIZE ≤ x.length := by
            simp only [BLOCK_SIZE] at hlt1 ⊢
            omega
          rw [if_pos hfit2]

/-- C1: for all byte sequences `old` and `new`, replaying the chunk sequence
produced by `compute_diff old new` against `old` with `apply_diff`
reproduces `new` exactly (in particular no `Copy` chunk is out of range);
this covers empty `old`, empty `new`, and lengths below, at, and above the
4096-byte block size. -/
theorem C1_compute_apply_roundtrip (old new : List Nat) :
    apply_diff old (compute_diff old new) = some new :=
  compute_diff_roundtrip old new

/-- C10: for `x` of length at least 4096, `compute_diff x x` applied to `x`
yields `x`, and the chunk sequence contains at least `⌊ |x| / 4096 ⌋`
`Copy` chunks: every block-aligned window of the unchanged input is
recognized as a copy. -/
theorem C10_self_diff_copies (x : List Nat) (hx : 4096 ≤ x.length) :
    apply_diff x (compute_diff x x) = some x ∧
      x.length / 4096 ≤ countCopies (compute_diff x x) := by
  refine ⟨compute_diff_roundtrip x x, ?_⟩
  have hxne : x ≠ [] := by
    intro h
    rw [h] at hx
    simp at hx
  unfold compute_diff
  rw [if_neg hxne]
  unfold match_blocks
  rw [if_neg (by simp only [BLOCK_SIZE]; omega : ¬ x.length < BLOCK_SIZE)]
  have hcount := matchLoop_count_self x (x.length + 1) 0 []
    (RollingHash.init (x.take BLOCK_SIZE))
    (Nat.zero_le _)
    (fun _ => by simp)
    (by have := Nat.div_le_self x.length BLOCK_SIZE; omega)
  simp only [Nat.zero_mul] at hcount
  rw [hcount]
  simp only [BLOCK_SIZE]
  omega

/-- Witness for C10: the all-zero input of exactly one block length. -/
theorem C10_self_diff_copies_witness :
    4096 ≤ (List.replicate 4096 0).length ∧
      (apply_diff (List.replicate 4096 0)
          (compute_diff (List.replicate 4096 0) (List.replicate 4096 0)) =
        some (List.replicate 4096 0) ∧
        (List.replicate 4096 0).length / 4096 ≤
          countCopies (compute_diff (List.replicate 4096 0) (List.replicate 4096 0))) :=
  ⟨by simp only [List.length_replicate]; exact le_rfl,
    C10_self_diff_copies (List.replicate 4096 0)
      (by simp only [List.length_replicate]; exact le_rfl)⟩

/-! The rolling-hash slide contract (claim C6). -/

theorem foldl_initAccum_replicate_zero :
    ∀ (k a b : Nat), a < U64 → b < U64 →
      (List.replicate k 0).foldl initAccum (a, b) = (a, (b + k * a) % U64) := by
  intro k
  induction k with
  | zero =>
    intro a b ha hb
    simp [Nat.mod_eq_of_lt hb]
  | succ n ih =>
    intro a b ha hb
    rw [List.replicate_succ, List.foldl_cons]
    have h1 : initAccum (a, b) 0 = (a, (b + a) % U64) := by
      simp [initAccum, Nat.mod_eq_of_lt ha]
    rw [h1, ih a ((b + a) % U64) ha (Nat.mod_lt _ (by norm_num [U64]))]
    have h2 : ((b + a) % U64 + n * a) % U64 = (b + a + n * a) % U64 := Nat.mod_add_mod _ _ _
    have h3 : b + a + n * a = b + (n + 1) * a := by ring
    rw [h2, h3]

/-- C6 counterexample: the claim as stated fails on the code for a block of
length 2^32.  `RollingHash::init` truncates the window size with
`data.len() as u32`, so after `init` on the 2^32-byte block
`5 :: 0^(2^32-1)`, `rotate(5, 0)` subtracts `5 * 0` instead of
`5 * 2^32 mod 65521`, and the digest differs from re-initializing on
`block[1..] ++ [0]` (88473601 versus 14745601). -/
theorem C6_counterexample :
    ((RollingHash.init (5 :: List.replicate 4294967295 0)).rotate 5 0).digest ≠
      (RollingHash.init (List.replicate 4294967295 0 ++ [0])).digest := by
  have h1 : RollingHash.init (5 :: List.replicate 4294967295 0) = ⟨6, 1350, 0⟩ := by
    unfold RollingHash.init
    rw [List.foldl_cons]
    have e1 : initAccum (1, 0) 5 = (6, 6) := by norm_num [initAccum, U64]
    rw [e1, foldl_initAccum_replicate_zero _ 6 6 (by norm_num [U64]) (by norm_num [U64])]
    rw [List.length_cons, List.length_replicate]
    norm_num [U64, U32, MOD_ADLER]
  have h2 : RollingHash.init (List.replicate 4294967295 0 ++ [0]) = ⟨1, 225, 0⟩ := by
    have e : List.replicate 4294967295 0 ++ [0] = List.replicate 4294967296 (0 : Nat) := by
      rw [← List.replicate_succ']
    rw [e]
    unfold RollingHash.init
    rw [foldl_initAccum_replicate_zero _ 1 0 (by norm_num [U64]) (by norm_num [U64])]
    rw [List.length_replicate]
    norm_num [U64, U32, MOD_ADLER]
  rw [h1, h2]
  decide

theorem foldl_initAccum_plain :
    ∀ (L : List Nat) (a b : Nat),
      a + L.sum < U64 → b + L.length * a + adlerW L < U64 →
      L.foldl initAccum (a, b) = (a + L.sum, b + L.length * a + adlerW L) := by
  intro L
  induction L with
  | nil =>
    intro a b _ _
    simp [adlerW]
  | cons x xs ih =>
    intro a b ha hb
    have hsum : (x :: xs).sum = x + xs.sum := by simp
    have hWeq : adlerW (x :: xs) = x * (xs.length + 1) + adlerW xs := rfl
    have hlen : (x :: xs).length = xs.length + 1 := rfl
    have hexp : b + (x :: xs).length * a + adlerW (x :: xs) =
        (b + a + x) + xs.length * (a + x) + adlerW xs := by
      rw [hWeq, hlen]; ring
    have hax : a + x < U64 := by
      rw [hsum] at ha; omega
    have habx : b + (a + x) < U64 := by
      rw [hexp] at hb; omega
    rw [List.foldl_cons]
    have e1 : initAccum (a, b) x = (a + x, b + (a + x)) := by
      simp [initAccum, Nat.mod_eq_of_lt hax, Nat.mod_eq_of_lt habx]
    rw [e1, ih (a + x) (b + (a + x)) (by rw [hsum] at ha; omega) (by rw [hexp] at hb; omega)]
    rw [hsum, hexp]
    simp only [Prod.mk.injEq]
    exact ⟨by ring, by ring⟩

theorem adlerW_append_single (t : List Nat) (y : Nat) :
    adlerW (t ++ [y]) = adlerW t + t.sum + y := by
  induction t with
  | nil => simp [adlerW]
  | cons x xs ih =>
    simp only [List.cons_append, adlerW, List.sum_cons, List.append_eq]
    rw [ih, List.length_append]
    simp only [List.length_singleton]
    ring

theorem list_sum_le_mul (L : List Nat) (h : ∀ x ∈ L, x < 256) : L.sum ≤ 255 * L.length := by
  induction L with
  | nil => simp
  | cons x xs ih =>
    have hx : x < 256 := h x (by simp)
    have ihx := ih fun z hz => h z (by simp [hz])
    simp only [List.sum_cons, List.length_cons]
    omega

theorem adlerW_le_mul (L : List Nat) (h : ∀ x ∈ L, x < 256) :
    adlerW L ≤ 255 * (L.length * L.length) := by
  induction L with
  | nil => simp [adlerW]
  | cons x xs ih =>
    have hx : x < 256 := h x (by simp)
    have ihx := ih fun z hz => h z (by simp [hz])
    simp only [adlerW, List.length_cons]
    nlinarith [Nat.zero_le xs.length]

theorem rotate_mk (av bv wv c y : Nat) :
    (RollingHash.mk av bv wv).rotate c y =
      ⟨(av + MOD_ADLER - c + y) % MOD_ADLER,
       (bv + MOD_ADLER - 1 + (av + MOD_ADLER - c + y) % MOD_ADLER
         - (c * wv % U32) % MOD_ADLER) % MOD_ADLER,
       wv⟩ := rfl

theorem digest_mk (av bv wv : Nat) :
    (RollingHash.mk av bv wv).digest = ((bv <<< 16) % U32) ||| av := rfl

/-- C6 (amended): for every non-empty byte block whose length is at most
2^24 — small enough that the window size fits in `u32`, the `u32` product
`old_byte * window_size` in `rotate` cannot wrap, and the 64-bit `init`
accumulators cannot overflow — and every byte `y`, `init` on the block
followed by `rotate(block[0], y)` yields the same digest as `init` on
`block[1..] ++ [y]`. -/
theorem C6_amended (c y : Nat) (t : List Nat) (hc : c < 256) (hy : y < 256)
    (ht : ∀ x ∈ t, x < 256) (hlen : t.length + 1 ≤ 2 ^ 24) :
    ((RollingHash.init (c :: t)).rotate c y).digest =
      (RollingHash.init (t ++ [y])).digest := by
  have hM : (0 : Nat) < MOD_ADLER := by norm_num [ MOD_ADLER]
  have hcM : c < MOD_ADLER := by simp only [ MOD_ADLER]; omega
  -- abbreviations for the mathematical sums
  have hsum_t : t.sum ≤ 255 * t.length := list_sum_le_mul t ht
  have hW_t : adlerW t ≤ 255 * (t.length * t.length) := adlerW_le_mul t ht
  have hll : t.length * t.length ≤ 2 ^ 24 * 2 ^ 24 :=
    Nat.mul_le_mul (by omega) (by omega)
  -- the left state: init (c :: t)
  have hb1 : 1 + (c :: t).sum < U64 := by
    simp only [List.sum_cons, U64]
    omega
  have hb2 : 0 + (c :: t).length * 1 + adlerW (c :: t) < U64 := by
    have hWL : adlerW (c :: t) = c * (t.length + 1) + adlerW t := rfl
    have hcn : c * (t.length + 1) ≤ 255 * (t.length + 1) :=
      Nat.mul_le_mul_right _ (by omega)
    have hcn2 : 255 * (t.length + 1) ≤ 255 * 2 ^ 24 :=
      Nat.mul_le_mul_left _ hlen
    simp only [List.length_cons, hWL, U64]
    omega
  have hinitL : RollingHash.init (c :: t) =
      ⟨(1 + (c :: t).sum) % MOD_ADLER,
       (0 + (c :: t).length * 1 + adlerW (c :: t)) % MOD_ADLER,
       t.length + 1⟩ := by
    unfold RollingHash.init
    rw [foldl_initAccum_plain (c :: t) 1 0 hb1 hb2]
    have hws : (c :: t).length % U32 = t.length + 1 := by
      rw [List.length_cons]
      exact Nat.mod_eq_of_lt (by simp only [U32]; omega)
    rw [hws]
  -- the right state: init (t ++ [y])
  have hb3 : 1 + (t ++ [y]).sum < U64 := by
    simp only [List.sum_append, List.sum_cons, List.sum_nil, U64]
    omega
  have hb4 : 0 + (t ++ [y]).length * 1 + adlerW (t ++ [y]) < U64 := by
    rw [adlerW_append_single]
    simp only [List.length_append, List.length_singleton, U64]
    omega
  have hinitR : RollingHash.init (t ++ [y]) =
      ⟨(1 + (t ++ [y]).sum) % MOD_ADLER,
       (0 + (t ++ [y]).length * 1 + adlerW (t ++ [y])) % MOD_ADLER,
       t.length + 1⟩ := by
    unfold RollingHash.init
    rw [foldl_initAccum_plain (t ++ [y]) 1 0 hb3 hb4]
    have hws : (t ++ [y]).length % U32 = t.length + 1 := by
      rw [List.length_append, List.length_singleton]
      exact Nat.mod_eq_of_lt (by simp only [U32]; omega)
    rw [hws]
  rw [hinitL, hinitR, rotate_mk]
  -- set up the arithmetic names
  have hA : 1 + (c :: t).sum = 1 + c + t.sum := by simp [List.sum_cons]; ring
  have hA2 : 1 + (t ++ [y]).sum = 1 + t.sum + y := by
    simp [List.sum_append]; ring
  have hB : 0 + (c :: t).length * 1 + adlerW (c :: t) =
      (t.length + 1) + (c * (t.length + 1) + adlerW t) := by
    have hWL : adlerW (c :: t) = c * (t.length + 1) + adlerW t := rfl
    simp only [List.length_cons, hWL]
    ring
  have hB2 : 0 + (t ++ [y]).length * 1 + adlerW (t ++ [y]) =
      (t.length + 1) + (adlerW t + t.sum + y) := by
    rw [adlerW_append_single]
    simp only [List.length_append, List.length_singleton]
    ring
  rw [hA, hA2, hB, hB2]
  -- now everything is arithmetic; name the quantities
  set n := t.length + 1 with hn
  set A : Nat := 1 + c + t.sum with hAdef
  set A2 : Nat := 1 + t.sum + y with hA2def
  set B : Nat := n + (c * n + adlerW t) with hBdef
  set B2 : Nat := n + (adlerW t + t.sum + y) with hB2def
  -- the truncated u32 product is exact here
  have hcn_small : c * n % U32 = c * n := by
    have h1 : c * n ≤ 255 * n := Nat.mul_le_mul_right _ (by omega)
    have h2 : (255 : Nat) * n ≤ 255 * 2 ^ 24 := Nat.mul_le_mul_left _ hlen
    have h3 : (255 : Nat) * 2 ^ 24 < U32 := by norm_num [U32]
    exact Nat.mod_eq_of_lt (by omega)
  rw [hcn_small]
  -- a-component congruence
  have hAmod : A % MOD_ADLER ≡ A [MOD MOD_ADLER] := Nat.mod_modEq A MOD_ADLER
  have hMzero : (MOD_ADLER : Nat) ≡ 0 [MOD MOD_ADLER] :=
    Nat.modEq_zero_iff_dvd.mpr dvd_rfl
  have ea1 : (A % MOD_ADLER + MOD_ADLER - c + y) + c = A % MOD_ADLER + MOD_ADLER + y := by
    omega
  have ea2 : A + y = A2 + c := by
    rw [hAdef, hA2def]; ring
  have hacong : (A % MOD_ADLER + MOD_ADLER - c + y) ≡ A2 [MOD MOD_ADLER] := by
    have step : (A % MOD_ADLER + MOD_ADLER - c + y) + c ≡ A2 + c [MOD MOD_ADLER] := by
      rw [ea1]
      calc A % MOD_ADLER + MOD_ADLER + y
          ≡ A + MOD_ADLER + y [MOD MOD_ADLER] :=
            Nat.ModEq.add_right _ (Nat.ModEq.add_right _ hAmod)
        _ ≡ A + 0 + y [MOD MOD_ADLER] :=
            Nat.ModEq.add_right _ (Nat.ModEq.add_left _ hMzero)
        _ = A + y := by ring
        _ = A2 + c := ea2
    exact Nat.ModEq.add_right_cancel' c step
  have haeq : (A % MOD_ADLER + MOD_ADLER - c + y) % MOD_ADLER = A2 % MOD_ADLER := hacong
  -- b-component congruence
  have hT : c * n % MOD_ADLER < MOD_ADLER := Nat.mod_lt _ hM
  have hBmod : B % MOD_ADLER ≡ B [MOD MOD_ADLER] := Nat.mod_modEq B MOD_ADLER
  have eb1 : (B % MOD_ADLER + MOD_ADLER - 1 + (A % MOD_ADLER + MOD_ADLER - c + y) % MOD_ADLER
      - c * n % MOD_ADLER) + (c * n % MOD_ADLER + 1)
      = B % MOD_ADLER + MOD_ADLER + (A % MOD_ADLER + MOD_ADLER - c + y) % MOD_ADLER := by
    omega
  have eb2 : B + A2 = B2 + c * n + 1 := by
    rw [hBdef, hA2def, hB2def]; ring
  have hbcong : (B % MOD_ADLER + MOD_ADLER - 1 + (A % MOD_ADLER + MOD_ADLER - c + y) % MOD_ADLER
      - c * n % MOD_ADLER) ≡ B2 [MOD MOD_ADLER] := by
    have hcnmod : (c * n : Nat) ≡ c * n % MOD_ADLER [MOD MOD_ADLER] :=
      (Nat.mod_modEq _ _).symm
    have step : (B % MOD_ADLER + MOD_ADLER - 1 + (A % MOD_ADLER + MOD_ADLER - c + y) % MOD_ADLER
        - c * n % MOD_ADLER) + (c * n % MOD_ADLER + 1)
        ≡ B2 + (c * n % MOD_ADLER + 1) [MOD MOD_ADLER] := by
      rw [eb1, haeq]
      calc B % MOD_ADLER + MOD_ADLER + A2 % MOD_ADLER
          ≡ B + MOD_ADLER + A2 % MOD_ADLER [MOD MOD_ADLER] :=
            Nat.ModEq.add_right _ (Nat.ModEq.add_right _ hBmod)
        _ ≡ B + 0 + A2 [MOD MOD_ADLER] :=
            Nat.ModEq.add (Nat.ModEq.add_left _ hMzero) (Nat.mod_modEq _ _)
        _ = B + A2 := by ring
        _ = B2 + c * n + 1 := eb2
        _ ≡ B2 + c * n % MOD_ADLER + 1 [MOD MOD_ADLER] :=
            Nat.ModEq.add_right _ (Nat.ModEq.add_left _ hcnmod)
        _ = B2 + (c * n % MOD_ADLER + 1) := by ring
    exact Nat.ModEq.add_right_cancel' _ step
  have hbeq : (B % MOD_ADLER + MOD_ADLER - 1 + (A % MOD_ADLER + MOD_ADLER - c + y) % MOD_ADLER
      - c * n % MOD_ADLER) % MOD_ADLER = B2 % MOD_ADLER := hbcong
  rw [digest_mk, digest_mk, hbeq, haeq]

/-- Witness for the amended C6 at block `[1, 2]` and incoming byte `3`. -/
theorem C6_amended_witness :
    (1 < 256 ∧ 3 < 256 ∧ (∀ x ∈ [2], x < 256) ∧ [2].length + 1 ≤ 2 ^ 24) ∧
      ((RollingHash.init (1 :: [2])).rotate 1 3).digest =
        (RollingHash.init ([2] ++ [3])).digest :=
  ⟨⟨by norm_num, by norm_num, by decide, by norm_num⟩,
    C6_amended 1 3 [2] (by norm_num) (by norm_num) (by decide) (by norm_num)⟩

/-! The applier's verification behavior (claims C2 - C5). -/

/-- C3: for every `ModifyFile` operation, the applier reconstructs the new
bytes in a fresh buffer (`apply_diff`), hashes that buffer and verifies it
against the operation's target digest before any write: on a mismatch it
fails with the hash-mismatch error and the on-disk bytes are unchanged; on
a match it rewrites the file with the reconstructed bytes. -/
theorem C3_modify_verifies_before_write (oldData : List Nat) (chunks : List DiffChunk)
    (digest newData : List Nat)
    (happly : apply_diff oldData chunks = some newData) :
    (hash_bytes newData ≠ digest →
      modifyFileOp oldData chunks digest = (oldData, some ApplyError.hashMismatch)) ∧
    (hash_bytes newData = digest →
      modifyFileOp oldData chunks digest = (newData, none)) := by
  constructor <;> intro h <;> simp [modifyFileOp, happly, h]

/-- Witness for C3: a one-chunk diff whose result hashes to `[1]`. -/
theorem C3_modify_verifies_before_write_witness :
    apply_diff [7] [DiffChunk.Insert [1]] = some [1] ∧
      ((hash_bytes [1] ≠ [2] →
        modifyFileOp [7] [DiffChunk.Insert [1]] [2] = ([7], some ApplyError.hashMismatch)) ∧
       (hash_bytes [1] = [2] →
        modifyFileOp [7] [DiffChunk.Insert [1]] [2] = ([1], none))) :=
  ⟨by decide, C3_modify_verifies_before_write [7] [DiffChunk.Insert [1]] [2] [1] (by decide)⟩

/-- C4: for every `AddFile` operation the applier writes the file and then
hashes the written bytes; it fails with the hash-mismatch error exactly
when the hash of the written bytes differs from the operation's
`content_hash`, and the write of the data to the joined path is among the
performed actions either way. -/
theorem C4_add_hash_check_iff (target path data digest : List Nat) :
    ((addFileActions target path data digest).2 = some ApplyError.hashMismatch ↔
      hash_bytes data ≠ digest) ∧
    FsAction.writeFile (joinPath target path) data ∈
      (addFileActions target path data digest).1 := by
  constructor
  · by_cases h : hash_bytes data = digest <;> simp [addFileActions, h]
  · simp [addFileActions]

/-- C5: when the patch file's first 8 bytes differ from `PATCHV01`, or the
decoded manifest's version differs from 1, `apply_patch` returns a
structured error and performs no filesystem action on the target. -/
theorem C5_bad_header_no_mutation (target raw : List Nat)
    (decoded : Option PatchManifest) (fsRead : List Nat → Option (List Nat))
    (h : raw.take 8 ≠ magicBytes ∨ ∃ m, decoded = some m ∧ m.version ≠ 1) :
    (applyPatchModel target raw decoded fsRead).1 = [] ∧
      ∃ e, (applyPatchModel target raw decoded fsRead).2 = Except.error e := by
  by_cases hm : 8 ≤ raw.length ∧ raw.take 8 = magicBytes
  · cases h with
    | inl hmag => exact absurd hm.2 hmag
    | inr hver =>
      obtain ⟨m, hdec, hv⟩ := hver
      subst hdec
      simp [applyPatchModel, hm, FORMAT_VERSION, hv]
  · simp [applyPatchModel, hm]

/-- Witness for C5: the empty patch file. -/
theorem C5_bad_header_no_mutation_witness :
    (([] : List Nat).take 8 ≠ magicBytes ∨
      ∃ m, (none : Option PatchManifest) = some m ∧ m.version ≠ 1) ∧
      ((applyPatchModel [] [] none (fun _ => none)).1 = [] ∧
        ∃ e, (applyPatchModel [] [] none (fun _ => none)).2 = Except.error e) :=
  ⟨Or.inl (by decide), C5_bad_header_no_mutation [] [] none (fun _ => none) (Or.inl (by decide))⟩

/-- C2 (code behavior at the failing input): a manifest whose `CreateDir`
path contains a `..` segment is not rejected — `apply_patch` joins the path
onto the target directory and executes the operation, returning success.
The wire convention's mandated rejection is absent from apply.rs. -/
theorem C2_no_path_validation :
    applyPatchModel (strBytes "/t") magicBytes
        (some ⟨1, [PatchOp.CreateDir (strBytes "../escape")]⟩) (fun _ => none) =
      ([FsAction.createDirAll (strBytes "/t/../escape")],
        Except.ok ⟨1, 0, 0, 0, 0⟩) := rfl

/-! The builder's operation ordering and per-file behavior (claims C7 - C9). -/

theorem bytesLe_append_cons_false (x : List Nat) (c : Nat) (s : List Nat) :
    bytesLe (x ++ c :: s) x = false := by
  induction x with
  | nil => rfl
  | cons a as ih => simp [bytesLe, lt_irrefl, ih]

theorem pathLe_not_descendant {a b : List Nat} (h : pathLe a b) :
    ¬ isProperDescendant a b := by
  rintro ⟨s, rfl⟩
  rw [pathLe, bytesLe_append_cons_false] at h
  exact Bool.false_ne_true h

/-- C7: the operations of every produced manifest are grouped in the order
CreateDir, AddFile, ModifyFile, DeleteFile, DeleteDir; the CreateDir paths
are in ascending lexicographic order (so no CreateDir path is a proper
descendant of a later one: parents precede children), and the DeleteDir
paths are in descending lexicographic order (so no DeleteDir path is a
proper ancestor of a later one: children precede parents). -/
theorem C7_manifest_phase_order (old new : List TreeEntry) :
    ∃ (cds : List (List Nat)) (adds mods : List PatchOp) (dels dds : List (List Nat)),
      createPatchOps old new =
        cds.map PatchOp.CreateDir ++ adds ++ mods ++
          dels.map PatchOp.DeleteFile ++ dds.map PatchOp.DeleteDir ∧
      (∀ op ∈ adds, ∃ p d h, op = PatchOp.AddFile p d h) ∧
      (∀ op ∈ mods, ∃ p c h, op = PatchOp.ModifyFile p c h) ∧
      cds.Sorted pathLe ∧
      dds.Sorted (fun a b => pathLe b a) ∧
      List.Pairwise (fun a b => ¬ isProperDescendant a b) cds ∧
      List.Pairwise (fun a b => ¬ isProperDescendant b a) dds := by
  refine ⟨sort_dirs_parent_first (dirs_to_create old new),
    (addResults old new).map (fun t => PatchOp.AddFile t.1 t.2.1 t.2.2),
    (diffResults old new).map (fun t => PatchOp.ModifyFile t.1 t.2.1 t.2.2),
    files_to_delete old new,
    sort_dirs_deepest_first (dirs_to_delete old new),
    ?_, ?_, ?_, ?_, ?_, ?_, ?_⟩
  · rfl
  · intro op hop
    simp only [List.mem_map] at hop
    obtain ⟨t, _, rfl⟩ := hop
    exact ⟨t.1, t.2.1, t.2.2, rfl⟩
  · intro op hop
    simp only [List.mem_map] at hop
    obtain ⟨t, _, rfl⟩ := hop
    exact ⟨t.1, t.2.1, t.2.2, rfl⟩
  · exact List.sorted_insertionSort pathLe _
  · unfold sort_dirs_deepest_first
    rw [List.Sorted, List.pairwise_reverse]
    exact List.sorted_insertionSort pathLe _
  · exact (List.sorted_insertionSort pathLe _).imp fun h => pathLe_not_descendant h
  · unfold sort_dirs_deepest_first
    rw [List.pairwise_reverse]
    exact (List.sorted_insertionSort pathLe _).imp fun h => pathLe_not_descendant h

theorem diffResultFor_eq (old new : List TreeEntry) (q : List Nat) (oe ne : TreeEntry)
    (ho : lookupEntry old q = some oe) (hn : lookupEntry new q = some ne) :
    diffResultFor old new q =
      if entrySize oe = entrySize ne ∧ blake3_hash oe.content = blake3_hash ne.content then
        none
      else
        some (q,
          (if is_incompressible q then [DiffChunk.Insert ne.content]
           else compute_diff oe.content ne.content),
          blake3_hash ne.content) := by
  unfold diffResultFor
  rw [ho, hn]

/-- C8: every emitted `ModifyFile` whose path has an incompressible
extension carries exactly one `Insert` chunk holding the complete new file
bytes (the block differ is bypassed). -/
theorem C8_incompressible_whole_insert (old new : List TreeEntry)
    (p : List Nat) (chunks : List DiffChunk) (digest : List Nat)
    (hmem : PatchOp.ModifyFile p chunks digest ∈ createPatchOps old new)
    (hinc : is_incompressible p = true) :
    ∃ ne, lookupEntry new p = some ne ∧ chunks = [DiffChunk.Insert ne.content] := by
  unfold createPatchOps at hmem
  simp only [List.mem_append, List.mem_map] at hmem
  rcases hmem with ((((⟨q, _, hq⟩ | ⟨t, ht, hq⟩) | ⟨t, ht, hq⟩) | ⟨q, _, hq⟩) | ⟨q, _, hq⟩)
  · exact absurd hq (by simp)
  · exact absurd hq (by simp)
  · obtain ⟨hp, hchunks, hdig⟩ : t.1 = p ∧ t.2.1 = chunks ∧ t.2.2 = digest := by
      cases hq
      exact ⟨rfl, rfl, rfl⟩
    unfold diffResults at ht
    simp only [List.mem_filterMap] at ht
    obtain ⟨q, _, hq2⟩ := ht
    cases ho : lookupEntry old q with
    | none =>
      unfold diffResultFor at hq2
      rw [ho] at hq2
      exact absurd hq2 (by simp)
    | some oe =>
      cases hn : lookupEntry new q with
      | none =>
        unfold diffResultFor at hq2
        rw [ho, hn] at hq2
        exact absurd hq2 (by simp)
      | some ne =>
        rw [diffResultFor_eq old new q oe ne ho hn] at hq2
        by_cases hdrop : entrySize oe = entrySize ne ∧
            blake3_hash oe.content = blake3_hash ne.content
        · rw [if_pos hdrop] at hq2
          exact absurd hq2 (by simp)
        · rw [if_neg hdrop] at hq2
          simp only [Option.some.injEq] at hq2
          have hqp : q = p := by rw [← hp, ← hq2]
          subst hqp
          refine ⟨ne, hn, ?_⟩
          rw [← hchunks, ← hq2]
          simp [hinc]
  · exact absurd hq (by simp)
  · exact absurd hq (by simp)

/-- Witness for C8: an old/new pair differing in one `.png` file. -/
theorem C8_incompressible_whole_insert_witness :
    (PatchOp.ModifyFile (strBytes "a.png") [DiffChunk.Insert [1, 2]] [1, 2] ∈
        createPatchOps [⟨strBytes "a.png", EntryKind.File, [1]⟩]
          [⟨strBytes "a.png", EntryKind.File, [1, 2]⟩] ∧
      is_incompressible (strBytes "a.png") = true) ∧
      ∃ ne, lookupEntry [⟨strBytes "a.png", EntryKind.File, [1, 2]⟩] (strBytes "a.png") =
          some ne ∧ [DiffChunk.Insert [1, 2]] = [DiffChunk.Insert ne.content] :=
  ⟨⟨by decide, by decide⟩,
    C8_incompressible_whole_insert
      [⟨strBytes "a.png", EntryKind.File, [1]⟩]
      [⟨strBytes "a.png", EntryKind.File, [1, 2]⟩]
      (strBytes "a.png") [DiffChunk.Insert [1, 2]] [1, 2]
      (by decide) (by decide)⟩

/-- C9: a path present as a file in both trees with byte-identical contents
produces no `ModifyFile` operation, and the summary's `files_modified`
counter equals the number of `ModifyFile` operations actually emitted. -/
theorem C9_identical_file_dropped (old new : List TreeEntry)
    (p : List Nat) (oe ne : TreeEntry)
    (ho : lookupEntry old p = some oe) (hn : lookupEntry new p = some ne)
    (hko : oe.kind = EntryKind.File) (hkn : ne.kind = EntryKind.File)
    (hc : oe.content = ne.content) :
    (∀ chunks digest, PatchOp.ModifyFile p chunks digest ∉ createPatchOps old new) ∧
      (createPatchSummary old new).files_modified = countModifies (createPatchOps old new) := by
  constructor
  · intro chunks digest hmem
    unfold createPatchOps at hmem
    simp only [List.mem_append, List.mem_map] at hmem
    rcases hmem with ((((⟨q, _, hq⟩ | ⟨t, ht, hq⟩) | ⟨t, ht, hq⟩) | ⟨q, _, hq⟩) | ⟨q, _, hq⟩)
    · exact absurd hq (by simp)
    · exact absurd hq (by simp)
    · obtain ⟨hp, _, _⟩ : t.1 = p ∧ t.2.1 = chunks ∧ t.2.2 = digest := by
        cases hq
        exact ⟨rfl, rfl, rfl⟩
      unfold diffResults at ht
      simp only [List.mem_filterMap] at ht
      obtain ⟨q, _, hq2⟩ := ht
      have hqp : q = p := by
        by_contra hne
        cases hol : lookupEntry old q with
        | none =>
          unfold diffResultFor at hq2
          rw [hol] at hq2
          exact absurd hq2 (by simp)
        | some oe2 =>
          cases hnl : lookupEntry new q with
          | none =>
            unfold diffResultFor at hq2
            rw [hol, hnl] at hq2
            exact absurd hq2 (by simp)
          | some ne2 =>
            rw [diffResultFor_eq old new q oe2 ne2 hol hnl] at hq2
            by_cases hdrop : entrySize oe2 = entrySize ne2 ∧
                blake3_hash oe2.content = blake3_hash ne2.content
            · rw [if_pos hdrop] at hq2
              exact absurd hq2 (by simp)
            · rw [if_neg hdrop] at hq2
              simp only [Option.some.injEq] at hq2
              apply hne
              rw [← hp, ← hq2]
      subst hqp
      rw [diffResultFor_eq old new q oe ne ho hn] at hq2
      rw [if_pos ?_] at hq2
      · exact absurd hq2 (by simp)
      · constructor
        · unfold entrySize
          rw [hko, hkn, hc]
        · rw [hc]
    · exact absurd hq (by simp)
    · exact absurd hq (by simp)
  · unfold createPatchSummary createPatchOps countModifies
    simp only [List.countP_append, List.countP_map]
    rw [show (selModifyFile ∘ PatchOp.CreateDir) = (fun _ => false) from rfl,
      show (selModifyFile ∘ fun (t : List Nat × List Nat × List Nat) =>
        PatchOp.AddFile t.1 t.2.1 t.2.2) = (fun _ => false) from rfl,
      show (selModifyFile ∘ fun (t : List Nat × List DiffChunk × List Nat) =>
        PatchOp.ModifyFile t.1 t.2.1 t.2.2) = (fun _ => true) from rfl,
      show (selModifyFile ∘ PatchOp.DeleteFile) = (fun _ => false) from rfl,
      show (selModifyFile ∘ PatchOp.DeleteDir) = (fun _ => false) from rfl,
      List.countP_false, List.countP_true]
    simp

/-- Witness for C9: identical single-file trees. -/
theorem C9_identical_file_dropped_witness :
    (lookupEntry [⟨strBytes "a.txt", EntryKind.File, [1]⟩] (strBytes "a.txt") =
        some ⟨strBytes "a.txt", EntryKind.File, [1]⟩ ∧
      (⟨strBytes "a.txt", EntryKind.File, [1]⟩ : TreeEntry).kind = EntryKind.File ∧
      (⟨strBytes "a.txt", EntryKind.File, [1]⟩ : TreeEntry).content = [1]) ∧
      ((∀ chunks digest,
          PatchOp.ModifyFile (strBytes "a.txt") chunks digest ∉
            createPatchOps [⟨strBytes "a.txt", EntryKind.File, [1]⟩]
              [⟨strBytes "a.txt", EntryKind.File, [1]⟩]) ∧
        (createPatchSummary [⟨strBytes "a.txt", EntryKind.File, [1]⟩]
            [⟨strBytes "a.txt", EntryKind.File, [1]⟩]).files_modified =
          countModifies (createPatchOps [⟨strBytes "a.txt", EntryKind.File, [1]⟩]
            [⟨strBytes "a.txt", EntryKind.File, [1]⟩])) :=
  ⟨⟨by decide, rfl, rfl⟩,
    C9_identical_file_dropped
      [⟨strBytes "a.txt", EntryKind.File, [1]⟩]
      [⟨strBytes "a.txt", EntryKind.File, [1]⟩]
      (strBytes "a.txt")
      ⟨strBytes "a.txt", EntryKind.File, [1]⟩
      ⟨strBytes "a.txt", EntryKind.File, [1]⟩
      (by decide) (by decide) rfl rfl rfl⟩

/-! Fuel adequacy: the Rust loop has no fuel; the model's fuel of
`new.length + 1` (chosen in `match_blocks`) is shown to never run out —
every iteration advances `pos` by at least one byte (a match advances by a
full block), so the loop result is stable under any larger fuel. -/

theorem matchLoop_fuel_succ (old new : List Nat) :
    ∀ (fuel pos : Nat) (buf : List Nat) (rolling : RollingHash),
      new.length < fuel + pos →
      matchLoop old new (build_signatures old) fuel pos buf rolling =
        matchLoop old new (build_signatures old) (fuel + 1) pos buf rolling := by
  intro fuel
  induction fuel with
  | zero =>
    intro pos buf rolling h
    have hB : 0 < BLOCK_SIZE := by norm_num [BLOCK_SIZE]
    rw [matchLoop, matchLoop]
    rw [if_pos (by omega)]
  | succ n ih =>
    intro pos buf rolling h
    rw [matchLoop]
    conv_rhs => rw [matchLoop]
    by_cases hwin : pos + BLOCK_SIZE > new.length
    · rw [if_pos hwin, if_pos hwin]
    · rw [if_neg hwin, if_neg hwin]
      push_neg at hwin
      cases hfm : find_match rolling.digest ((new.drop pos).take BLOCK_SIZE) old
          (build_signatures old) with
      | none =>
        simp only [hfm]
        exact ih (pos + 1) _ _ (by omega)
      | some mr =>
        obtain ⟨off, len⟩ := mr
        simp only [hfm]
        have hlen : len = BLOCK_SIZE :=
          (find_match_some old _ _ off len (length_window new pos hwin) hfm).1
        have hB : 0 < BLOCK_SIZE := by norm_num [BLOCK_SIZE]
        rw [ih (pos + len) [] _ (by omega)]

theorem matchLoop_fuel_stable (old new : List Nat) (extra : Nat) :
    ∀ (fuel pos : Nat) (buf : List Nat) (rolling : RollingHash),
      new.length < fuel + pos →
      matchLoop old new (build_signatures old) fuel pos buf rolling =
        matchLoop old new (build_signatures old) (fuel + extra) pos buf rolling := by
  induction extra with
  | zero => intro fuel pos buf rolling _; rfl
  | succ k ih =>
    intro fuel pos buf rolling h
    rw [ih fuel pos buf rolling h, matchLoop_fuel_succ old new (fuel + k) pos buf rolling (by omega)]
    rfl
